import Mathlib

/-!
Shallow embedding of the mankalla-rl repository (src/mankalla.rs, src/q_learning.rs,
src/main.rs) and proofs about it.

Modelling conventions:
* The board is the 14-element counter array of MankallaGameState, embedded as a
  List Nat (u8 counters are far below overflow in every state the claims exercise;
  Rust would abort on u8 overflow rather than wrap silently in debug builds).
* Reads of the array use List.getD with default 0 and writes use List.set; every
  index the source dereferences is proved (or evaluated) to be in bounds.
* f32 values are embedded as rationals; the rewards and value-table updates of the
  source only combine such values linearly.
* A Rust panic (the assert in MankallaGame::step, the expect in choose_action) is
  embedded as the none case of an Option-valued result.
-/

/-- Player discriminator, from src/mankalla.rs. -/
inductive Player
  | Player1
  | Player2
deriving DecidableEq

/-- Turn alternation, the match inside handle_switch_player. -/
def Player.other : Player → Player
  | .Player1 => .Player2
  | .Player2 => .Player1

/-- Board state, from src/mankalla.rs: 14 counters
(indices 0-5 player one's pits, 6 player one's scoring pit, 7-12 player two's
pits, 13 player two's scoring pit) plus whose turn it is. -/
structure MankallaGameState where
  fields : List Nat
  player_to_move : Player
deriving DecidableEq

/-- MankallaGameState::get_points. -/
def MankallaGameState.get_points (s : MankallaGameState) (p : Player) : Nat :=
  match p with
  | .Player1 => s.fields.getD 6 0
  | .Player2 => s.fields.getD 13 0

/-- Index of a player's scoring pit (the indices read by get_points). -/
def scoreIdx : Player → Nat
  | .Player1 => 6
  | .Player2 => 13

/-- Physical pit index of an action: the match at the top of MankallaGame::step
(offset 0 for player one, 7 for player two). -/
def physIdx (p : Player) (action : Nat) : Nat :=
  match p with
  | .Player1 => action
  | .Player2 => action + 7

/-- The sowing while-loop of MankallaGame::step: starting after pit i, drop one
marble into each consecutive pit (wrapping past 13), m times.  Returns the new
board and the index of the pit that received the last marble (the final value
of the loop variable i). -/
def sow : List Nat → Nat → Nat → List Nat × Nat
  | f, i, 0 => (f, i)
  | f, i, m+1 =>
      let j := (i + 1) % 14
      sow (f.set j (f.getD j 0 + 1)) j m

/-- Sum of player one's six playing pits, fields[0..6] in
handle_if_game_finished. -/
def p1_sum (f : List Nat) : Nat := (f.take 6).sum

/-- Sum of player two's six playing pits, fields[7..13] in
handle_if_game_finished. -/
def p2_sum (f : List Nat) : Nat := ((f.drop 7).take 6).sum

/-- The three mutations of a firing steal branch, in source order: add the pair
of pits to the scoring pit at index k, then zero the landing pit i, then zero
the opposite pit 12 - i. -/
def stealUpd (f : List Nat) (k i : Nat) : List Nat :=
  ((f.set k (f.getD k 0 + f.getD i 0 + f.getD (12 - i) 0)).set i 0).set (12 - i) 0

/-- The first if-block of handle_steal (player one's capture). -/
def handle_steal_p1 (s : MankallaGameState) (i : Nat) : MankallaGameState :=
  if s.fields.getD i 0 = 1 ∧ s.player_to_move = Player.Player1 ∧ i < 6 ∧
      0 < s.fields.getD (12 - i) 0 then
    { s with fields := stealUpd s.fields 6 i }
  else s

/-- The second if-block of handle_steal (player two's capture). -/
def handle_steal_p2 (s : MankallaGameState) (i : Nat) : MankallaGameState :=
  if s.fields.getD i 0 = 1 ∧ s.player_to_move = Player.Player2 ∧ 6 < i ∧ i < 13 ∧
      0 < s.fields.getD (12 - i) 0 then
    { s with fields := stealUpd s.fields 13 i }
  else s

/-- MankallaGameState::handle_steal, i the pit that received the last marble:
the two if-blocks of the source run in sequence on the same borrowed state. -/
def MankallaGameState.handle_steal (s : MankallaGameState) (i : Nat) : MankallaGameState :=
  handle_steal_p2 (handle_steal_p1 s i) i

/-- The sweep of handle_if_game_finished: zero every counter, then store each
side's harvested total (playing-pit sum plus old score) in its scoring pit. -/
def harvestFields (f : List Nat) : List Nat :=
  ((f.map fun _ => 0).set 6 (p1_sum f + f.getD 6 0)).set 13 (p2_sum f + f.getD 13 0)

/-- MankallaGameState::handle_if_game_finished: reports whether the game is over
and, if so, sweeps every remaining marble into its owner's scoring pit. -/
def MankallaGameState.handle_if_game_finished (s : MankallaGameState) :
    Bool × MankallaGameState :=
  if p1_sum s.fields ≠ 0 ∧ p2_sum s.fields ≠ 0 then (false, s)
  else (true, { s with fields := harvestFields s.fields })

/-- MankallaGameState::handle_switch_player. -/
def MankallaGameState.handle_switch_player (s : MankallaGameState) (i : Nat) :
    MankallaGameState :=
  if s.player_to_move = Player.Player1 ∧ i ≠ 6 ∨ s.player_to_move = Player.Player2 ∧ i ≠ 13 then
    { s with player_to_move := s.player_to_move.other }
  else s

/-- The pick-up-and-sow phase of MankallaGame::step: zero the source pit and run
the sowing loop with as many marbles as it held. -/
def afterSow (s : MankallaGameState) (action : Nat) : List Nat × Nat :=
  sow (s.fields.set (physIdx s.player_to_move action) 0) (physIdx s.player_to_move action)
    (s.fields.getD (physIdx s.player_to_move action) 0)

/-- The state after sowing and the capture check of MankallaGame::step. -/
def afterSteal (s : MankallaGameState) (action : Nat) : MankallaGameState :=
  MankallaGameState.handle_steal ⟨(afterSow s action).1, s.player_to_move⟩ (afterSow s action).2

/-- The reward of MankallaGame::step: the u8 differences of both players'
scores over the transition (taken after the game-finished sweep, as in the
source), cast to float, player one's minus player two's, negated when the
mover was player two. -/
def stepReward (s : MankallaGameState) (action : Nat) : ℚ :=
  let fin := (afterSteal s action).handle_if_game_finished
  let reward0 : ℚ :=
    ((fin.2.get_points Player.Player1 - s.get_points Player.Player1 : Nat) : ℚ) -
      ((fin.2.get_points Player.Player2 - s.get_points Player.Player2 : Nat) : ℚ)
  if fin.2.player_to_move = Player.Player2 then -reward0 else reward0

/-- MankallaGame::step.  The outer Option is the panic of assert(action < 6)
(none means the process aborts); the inner Option is the successor state of the
source, none when the transition is terminal. -/
def MankallaGame.step (s : MankallaGameState) (action : Nat) :
    Option (Option MankallaGameState × ℚ) :=
  if action < 6 then
    if ((afterSteal s action).handle_if_game_finished).1 then some (none, stepReward s action)
    else
      some (some (((afterSteal s action).handle_if_game_finished).2.handle_switch_player
        (afterSow s action).2), stepReward s action)
  else none

/-- The canonical initial configuration (Default for MankallaGameState). -/
def MankallaGameState.default : MankallaGameState :=
  ⟨[6, 6, 6, 6, 6, 6, 0, 6, 6, 6, 6, 6, 6, 0], Player.Player1⟩

/-- Ownership of a playing pit, the index ranges tested by handle_steal. -/
def ownsPlayingPit (p : Player) (i : Nat) : Prop :=
  match p with
  | .Player1 => i < 6
  | .Player2 => 6 < i ∧ i < 13

instance (p : Player) (i : Nat) : Decidable (ownsPlayingPit p i) := by
  cases p <;> dsimp only [ownsPlayingPit] <;> infer_instance


/-! ### The tabular policies of src/q_learning.rs -/

/-- GreedyPolicy (q_learning.rs): the value table is a map from
(action-relevant state, action) to f32; embedded as an association list with
unique keys (HashMap contents), learning rate and discount as rationals. -/
structure GreedyPolicy where
  qtable : List ((List Nat × Nat) × ℚ)
  learning_rate : ℚ
  gamma : ℚ
deriving DecidableEq

/-- HashMap::get on the association-list embedding. -/
def qlookup : List ((List Nat × Nat) × ℚ) → List Nat × Nat → Option ℚ
  | [], _ => none
  | (k, v) :: rest, key => if k = key then some v else qlookup rest key

/-- HashMap::insert on the association-list embedding: replace the entry if the
key is present, else append. -/
def qinsert : List ((List Nat × Nat) × ℚ) → List Nat × Nat → ℚ →
    List ((List Nat × Nat) × ℚ)
  | [], key, v => [(key, v)]
  | (k, w) :: rest, key, v =>
      if k = key then (key, v) :: rest else (k, w) :: qinsert rest key v

/-- Environment::actions for MankallaGame: the indices of the nonempty pits
among the first six entries of the projected state. -/
def MankallaGame.actions (state : List Nat) : List Nat :=
  (((state.take 6).enum).filter fun p => 0 < p.2).map Prod.fst

/-- The From<MankallaGameState> for [u8;12] projection: the six playing pits of
the player to move, then the opponent's six. -/
def toActionRelevantState (s : MankallaGameState) : List Nat :=
  match s.player_to_move with
  | .Player1 => s.fields.take 6 ++ (s.fields.drop 7).take 6
  | .Player2 => (s.fields.drop 7).take 6 ++ s.fields.take 6

/-- GreedyPolicy::choose_action: Iterator::max_by over the legal actions,
comparing stored values with missing entries read as zero; max_by keeps the
later element on ties.  none embeds the expect-panic on an empty action
list. -/
def GreedyPolicy.choose_action (p : GreedyPolicy) (state : List Nat) : Option Nat :=
  match MankallaGame.actions state with
  | [] => none
  | a :: rest =>
      some (rest.foldl
        (fun acc x =>
          if (qlookup p.qtable (state, acc)).getD 0 > (qlookup p.qtable (state, x)).getD 0
          then acc else x) a)

/-- GreedyPolicy::improve: one-step tabular update.  The source sets
target = reward + gamma * value of the greedy successor action when a
successor state exists, and target = 0 (not the reward) when the episode
terminated.  none embeds the panic inside choose_action. -/
def GreedyPolicy.improve (p : GreedyPolicy) (state : List Nat) (action : Nat) (reward : ℚ)
    (next_state : Option MankallaGameState) : Option GreedyPolicy :=
  let former_value := (qlookup p.qtable (state, action)).getD 0
  let target? : Option ℚ :=
    match next_state with
    | some ns =>
        (p.choose_action (toActionRelevantState ns)).map fun astar =>
          reward + p.gamma * (qlookup p.qtable (toActionRelevantState ns, astar)).getD 0
    | none => some 0
  target?.map fun target =>
    { p with qtable :=
        qinsert p.qtable (state, action) (former_value + p.learning_rate * (target - former_value)) }

/-- EpsilonGreedyPolicy (q_learning.rs), minus the random number generator
state, which plays no part in the claims below. -/
structure EpsilonGreedyPolicy where
  greedy_policy : GreedyPolicy
  min_epsilon : ℚ
  max_epsilon : ℚ
  decay_rate : ℚ
  episode : Nat
deriving DecidableEq

/-- GreedyPolicy::new. -/
def GreedyPolicy.new (learning_rate gamma : ℚ) : GreedyPolicy :=
  ⟨[], learning_rate, gamma⟩

/-- EpsilonGreedyPolicy::new. -/
def EpsilonGreedyPolicy.new (learning_rate gamma max_epsilon min_epsilon decay_rate : ℚ) :
    EpsilonGreedyPolicy :=
  ⟨GreedyPolicy.new learning_rate gamma, min_epsilon, max_epsilon, decay_rate, 0⟩

/-- The fresh policy constructed by main() when policy.csv cannot be read:
EpsilonGreedyPolicy::new(0.2, 1., 1., 0.1, -0.01). -/
def fallbackPolicy : EpsilonGreedyPolicy :=
  EpsilonGreedyPolicy.new (2/10) 1 1 (1/10) (-(1/100))

/-! ### The persistence codec of src/q_learning.rs and src/mankalla.rs

Strings are embedded as lists of characters.  f32 values are embedded as
rationals; parse::<f32> is modelled as exact decimal parsing followed by
rounding to the nearest binary significand of 24 bits (ties to even), which is
the value a finite positive-exponent f32 parse produces.  The Display
formatter for f32 prints the shortest decimal that parses back to the same
value; the model formatter prints the exact decimal expansion, which agrees
with the source's output on the values used below and, like it, parses back to
the printed value. -/

/-- The decimal digit characters. -/
def digitCh : Nat → Char
  | 0 => '0'
  | 1 => '1'
  | 2 => '2'
  | 3 => '3'
  | 4 => '4'
  | 5 => '5'
  | 6 => '6'
  | 7 => '7'
  | 8 => '8'
  | 9 => '9'
  | _ => '*'

/-- Decimal digit value of a character. -/
def digit? (c : Char) : Option Nat :=
  if c = '0' then some 0
  else if c = '1' then some 1
  else if c = '2' then some 2
  else if c = '3' then some 3
  else if c = '4' then some 4
  else if c = '5' then some 5
  else if c = '6' then some 6
  else if c = '7' then some 7
  else if c = '8' then some 8
  else if c = '9' then some 9
  else none

/-- Decimal digits of a natural number (u8::to_string, usize Display), with
explicit fuel. -/
def natToCharsAux : Nat → Nat → List Char → List Char
  | 0, _, acc => acc
  | fuel + 1, n, acc =>
      if n < 10 then digitCh n :: acc
      else natToCharsAux fuel (n / 10) (digitCh (n % 10) :: acc)

/-- Decimal digits of a natural number below 10^30. -/
def natToChars (n : Nat) : List Char := natToCharsAux 30 n []

/-- Left-to-right accumulation of decimal digits. -/
def parseDigitsAux : Nat → List Char → Option Nat
  | acc, [] => some acc
  | acc, c :: cs =>
      match digit? c with
      | some d => parseDigitsAux (acc * 10 + d) cs
      | none => none

/-- Parse a nonempty all-digit string. -/
def parseDigits : List Char → Option Nat
  | [] => none
  | c :: cs => parseDigitsAux 0 (c :: cs)

/-- u8::from_str: a decimal number below 256. -/
def parseU8 (cs : List Char) : Option Nat :=
  (parseDigits cs).bind fun n => if n < 256 then some n else none

/-- Floor of the base-two logarithm, with fuel. -/
def log2fuel : Nat → Nat → Nat
  | 0, _ => 0
  | fuel + 1, n => if n < 2 then 0 else log2fuel fuel (n / 2) + 1

/-- Floor of the base-two logarithm of naturals up to 2^128. -/
def natLog2 (n : Nat) : Nat := log2fuel 128 n

/-- Round a rational to an integer, ties to even. -/
def rndNEInt (y : ℚ) : ℤ :=
  let fl := ⌊y⌋
  let r := y - fl
  if r < 1 / 2 then fl
  else if 1 / 2 < r then fl + 1
  else if fl % 2 = 0 then fl else fl + 1

/-- Round a rational to the nearest f32-representable value (24 significand
bits, ties to even; overflow and subnormal effects are outside the range of
values the program stores). -/
def roundF32 (x : ℚ) : ℚ :=
  if x = 0 then 0
  else
    let a := if x < 0 then -x else x
    let e0 : ℤ := (natLog2 a.num.natAbs : ℤ) - (natLog2 a.den : ℤ)
    let e : ℤ := if a < (2 : ℚ) ^ e0 then e0 - 1 else e0
    let m : ℤ := rndNEInt (a * (2 : ℚ) ^ (23 - e))
    (if x < 0 then -1 else 1) * (m : ℚ) * (2 : ℚ) ^ (e - 23)

/-- Split a character list at every occurrence of the separator (str::split). -/
def splitOnChar (c : Char) : List Char → List (List Char)
  | [] => [[]]
  | x :: xs =>
      match splitOnChar c xs with
      | [] => [[]]
      | h :: t => if x = c then [] :: h :: t else (x :: h) :: t

/-- Split at the first occurrence of the separator (str::split_once). -/
def splitOnce (c : Char) : List Char → Option (List Char × List Char)
  | [] => none
  | x :: xs =>
      if x = c then some ([], xs)
      else (splitOnce c xs).map fun p => (x :: p.1, p.2)

/-- str::lines: newline-separated records, one trailing terminator allowed. -/
def linesOf (cs : List Char) : List (List Char) :=
  let parts := splitOnChar '\n' cs
  if parts.getLast? = some [] then parts.dropLast else parts

/-- Join string pieces with a separator (the reduce of format "a b" pairs). -/
def joinSep (c : Char) : List (List Char) → List Char
  | [] => []
  | [x] => x
  | x :: y :: t => x ++ c :: joinSep c (y :: t)

/-- Magnitude part of f32 parsing: digits, optionally with a decimal point. -/
def parseMag (cs1 : List Char) : Option ℚ :=
  match splitOnce '.' cs1 with
  | none => (parseDigits cs1).map fun n => (n : ℚ)
  | some (ip, fp) =>
      match ip, fp with
      | [], [] => none
      | [], _ :: _ => (parseDigits fp).map fun f => (f : ℚ) / 10 ^ fp.length
      | _ :: _, [] => (parseDigits ip).map fun n => (n : ℚ)
      | _ :: _, _ :: _ =>
          (parseDigits ip).bind fun n =>
            (parseDigits fp).map fun f => (n : ℚ) + (f : ℚ) / 10 ^ fp.length

/-- f32::from_str on plain decimal notation: exact decimal value rounded to
the nearest f32. -/
def parseF32 : List Char → Option ℚ
  | [] => none
  | c :: rest =>
      if c = '-' then (parseMag rest).map fun v => roundF32 (-v)
      else (parseMag (c :: rest)).map fun v => roundF32 v

/-- Exact decimal expansion of the fractional part (terminates within the fuel
for every value the program stores). -/
def fracChars : Nat → ℚ → List Char
  | 0, _ => []
  | fuel + 1, r =>
      if r = 0 then []
      else
        let r10 := r * 10
        digitCh (⌊r10⌋).toNat :: fracChars fuel (r10 - ⌊r10⌋)

/-- Display for f32 (exact decimal expansion; see the section comment). -/
def fmtF32 (x : ℚ) : List Char :=
  let a := if x < 0 then -x else x
  let fr := a - ⌊a⌋
  (if x < 0 then ['-'] else []) ++ natToChars (⌊a⌋).toNat ++
    (if fr = 0 then [] else '.' :: fracChars 200 fr)

/-- Serialize for [u8;12]: counters joined by single spaces. -/
def serializeState12 (st : List Nat) : List Char := joinSep ' ' (st.map natToChars)

/-- Parse a list of u8 tokens. -/
def parseU8List : List (List Char) → Option (List Nat)
  | [] => some []
  | t :: ts => (parseU8 t).bind fun v => (parseU8List ts).map fun vs => v :: vs

/-- Deserialize for [u8;12]: exactly twelve space-separated u8 tokens. -/
def deserializeState12 (cs : List Char) : Option (List Nat) :=
  if (splitOnChar ' ' cs).length = 12 then parseU8List (splitOnChar ' ' cs) else none

/-- One value-table record: state;action;value. -/
def serializeQLine (e : (List Nat × Nat) × ℚ) : List Char :=
  serializeState12 e.1.1 ++ ';' :: natToChars e.1.2 ++ ';' :: fmtF32 e.2

/-- Serialize for GreedyPolicy: gamma;learning_rate then one record per
table entry, every line newline-terminated. -/
def GreedyPolicy.serialize (p : GreedyPolicy) : List Char :=
  fmtF32 p.gamma ++ ';' :: fmtF32 p.learning_rate ++ '\n' ::
    (p.qtable.map fun e => serializeQLine e ++ ['\n']).flatten

/-- Parse one value-table record. -/
def parseQLine (cs : List Char) : Option ((List Nat × Nat) × ℚ) :=
  match splitOnChar ';' cs with
  | [st, ac, v] =>
      (deserializeState12 st).bind fun s =>
        (parseU8 ac).bind fun a => (parseF32 v).map fun q => ((s, a), q)
  | _ => none

/-- The record loop of GreedyPolicy::deserialize: parse each line and insert
it into the table. -/
def parseQTableAux : List ((List Nat × Nat) × ℚ) → List (List Char) →
    Option (List ((List Nat × Nat) × ℚ))
  | acc, [] => some acc
  | acc, l :: ls => (parseQLine l).bind fun e => parseQTableAux (qinsert acc e.1 e.2) ls

/-- Deserialize for GreedyPolicy. -/
def GreedyPolicy.deserialize (cs : List Char) : Option GreedyPolicy :=
  match linesOf cs with
  | [] => none
  | l1 :: rest =>
      match splitOnChar ';' l1 with
      | [g, lr] =>
          (parseF32 g).bind fun gamma =>
            (parseF32 lr).bind fun rate =>
              (parseQTableAux [] rest).map fun table => ⟨table, rate, gamma⟩
      | _ => none

/-- Serialize for EpsilonGreedyPolicy: the exploration parameters and episode
count on the first line, then the wrapped greedy policy. -/
def EpsilonGreedyPolicy.serialize (p : EpsilonGreedyPolicy) : List Char :=
  fmtF32 p.min_epsilon ++ ';' :: fmtF32 p.max_epsilon ++ ';' :: fmtF32 p.decay_rate ++
    ';' :: natToChars p.episode ++ '\n' :: p.greedy_policy.serialize

/-- The "episode as usize" cast of an f32 value: saturating truncation. -/
def usizeOfF32 (q : ℚ) : Nat := if q < 0 then 0 else (⌊q⌋).toNat

/-- Deserialize for EpsilonGreedyPolicy.  The episode count travels through
the same f32 parse as the three exploration parameters and is then cast back
to usize. -/
def EpsilonGreedyPolicy.deserialize (cs : List Char) : Option EpsilonGreedyPolicy :=
  (splitOnce '\n' cs).bind fun pr =>
    match splitOnChar ';' pr.1 with
    | [t1, t2, t3, t4] =>
        (parseF32 t1).bind fun mn =>
          (parseF32 t2).bind fun mx =>
            (parseF32 t3).bind fun dc =>
              (parseF32 t4).bind fun ep =>
                (GreedyPolicy.deserialize pr.2).map fun g => ⟨g, mn, mx, dc, usizeOfF32 ep⟩
    | _ => none


/-! ### List helper lemmas -/

theorem getD_set_self (l : List Nat) (i v : Nat) (h : i < l.length) :
    (l.set i v).getD i 0 = v := by
  induction l generalizing i with
  | nil => simp at h
  | cons a t ih =>
    cases i with
    | zero => simp
    | succ n => simpa using ih n (by simpa using h)

theorem getD_set_ne (l : List Nat) (i j v : Nat) (h : i ≠ j) :
    (l.set i v).getD j 0 = l.getD j 0 := by
  induction l generalizing i j with
  | nil => simp
  | cons a t ih =>
    cases i with
    | zero =>
      cases j with
      | zero => exact absurd rfl h
      | succ m => simp
    | succ n =>
      cases j with
      | zero => simp
      | succ m =>
        simp only [List.set_cons_succ, List.getD_cons_succ]
        exact ih n m (by omega)

theorem sum_set_getD (l : List Nat) (i v : Nat) (h : i < l.length) :
    (l.set i v).sum + l.getD i 0 = l.sum + v := by
  induction l generalizing i with
  | nil => simp at h
  | cons a t ih =>
    cases i with
    | zero => simp [Nat.add_comm, Nat.add_left_comm]
    | succ n =>
      have := ih n (by simpa using h)
      simp only [List.set_cons_succ, List.sum_cons, List.getD_cons_succ]
      omega

theorem set_zero_of_getD_zero (l : List Nat) (i : Nat) (h : l.getD i 0 = 0) :
    l.set i 0 = l := by
  induction l generalizing i with
  | nil => simp
  | cons a t ih =>
    cases i with
    | zero => simp_all
    | succ n => simp_all

theorem getD_map_zero (l : List Nat) (j : Nat) (h : j < l.length) :
    (l.map fun _ => 0).getD j 0 = 0 := by
  induction l generalizing j with
  | nil => simp at h
  | cons a t ih =>
    cases j with
    | zero => simp
    | succ n =>
      simp only [List.map_cons, List.getD_cons_succ]
      exact ih n (by simp only [List.length_cons] at h; omega)

theorem exists14 (l : List Nat) (h : l.length = 14) :
    ∃ b0 b1 b2 b3 b4 b5 b6 b7 b8 b9 b10 b11 b12 b13,
      l = [b0, b1, b2, b3, b4, b5, b6, b7, b8, b9, b10, b11, b12, b13] := by
  obtain ⟨b0, l, rfl⟩ := l.exists_of_length_succ h
  replace h : l.length = 13 := by simp only [List.length_cons] at h; omega
  obtain ⟨b1, l, rfl⟩ := l.exists_of_length_succ h
  replace h : l.length = 12 := by simp only [List.length_cons] at h; omega
  obtain ⟨b2, l, rfl⟩ := l.exists_of_length_succ h
  replace h : l.length = 11 := by simp only [List.length_cons] at h; omega
  obtain ⟨b3, l, rfl⟩ := l.exists_of_length_succ h
  replace h : l.length = 10 := by simp only [List.length_cons] at h; omega
  obtain ⟨b4, l, rfl⟩ := l.exists_of_length_succ h
  replace h : l.length = 9 := by simp only [List.length_cons] at h; omega
  obtain ⟨b5, l, rfl⟩ := l.exists_of_length_succ h
  replace h : l.length = 8 := by simp only [List.length_cons] at h; omega
  obtain ⟨b6, l, rfl⟩ := l.exists_of_length_succ h
  replace h : l.length = 7 := by simp only [List.length_cons] at h; omega
  obtain ⟨b7, l, rfl⟩ := l.exists_of_length_succ h
  replace h : l.length = 6 := by simp only [List.length_cons] at h; omega
  obtain ⟨b8, l, rfl⟩ := l.exists_of_length_succ h
  replace h : l.length = 5 := by simp only [List.length_cons] at h; omega
  obtain ⟨b9, l, rfl⟩ := l.exists_of_length_succ h
  replace h : l.length = 4 := by simp only [List.length_cons] at h; omega
  obtain ⟨b10, l, rfl⟩ := l.exists_of_length_succ h
  replace h : l.length = 3 := by simp only [List.length_cons] at h; omega
  obtain ⟨b11, l, rfl⟩ := l.exists_of_length_succ h
  replace h : l.length = 2 := by simp only [List.length_cons] at h; omega
  obtain ⟨b12, l, rfl⟩ := l.exists_of_length_succ h
  replace h : l.length = 1 := by simp only [List.length_cons] at h; omega
  obtain ⟨b13, l, rfl⟩ := l.exists_of_length_succ h
  replace h : l.length = 0 := by simp only [List.length_cons] at h; omega
  have hl : l = [] := List.length_eq_zero.mp h
  subst hl
  exact ⟨b0, b1, b2, b3, b4, b5, b6, b7, b8, b9, b10, b11, b12, b13, rfl⟩

theorem sum_decomp14 (l : List Nat) (h : l.length = 14) :
    l.sum = p1_sum l + l.getD 6 0 + p2_sum l + l.getD 13 0 := by
  obtain ⟨b0, b1, b2, b3, b4, b5, b6, b7, b8, b9, b10, b11, b12, b13, rfl⟩ := exists14 l h
  simp [p1_sum, p2_sum]
  omega

/-! ### Lemmas about the sowing loop -/

theorem sow_length (f : List Nat) (i m : Nat) : (sow f i m).1.length = f.length := by
  induction m generalizing f i with
  | zero => rfl
  | succ m ih => simp [sow, ih]

theorem sow_sum (f : List Nat) (i m : Nat) (h : f.length = 14) :
    (sow f i m).1.sum = f.sum + m := by
  induction m generalizing f i with
  | zero => simp [sow]
  | succ m ih =>
    have hj : (i + 1) % 14 < f.length := by rw [h]; exact Nat.mod_lt _ (by omega)
    have hset := sum_set_getD f ((i + 1) % 14) (f.getD ((i + 1) % 14) 0 + 1) hj
    simp only [sow]
    rw [ih _ _ (by simp [h])]
    omega

theorem sow_idx_lt (f : List Nat) (i m : Nat) (h : i < 14) : (sow f i m).2 < 14 := by
  induction m generalizing f i with
  | zero => exact h
  | succ m ih => exact ih _ _ (Nat.mod_lt _ (by omega))

/-! ### Lemmas about handle_steal -/

theorem stealUpd_sum (f : List Nat) (k i : Nat) (hk : k < f.length) (hi : i < f.length)
    (h12 : 12 - i < f.length) (hki : k ≠ i) (hk12 : k ≠ 12 - i) (hi12 : i ≠ 12 - i) :
    (stealUpd f k i).sum = f.sum := by
  unfold stealUpd
  have e1 := sum_set_getD f k (f.getD k 0 + f.getD i 0 + f.getD (12 - i) 0) hk
  have e2 := sum_set_getD (f.set k (f.getD k 0 + f.getD i 0 + f.getD (12 - i) 0)) i 0
    (by simpa using hi)
  have e3 := sum_set_getD ((f.set k (f.getD k 0 + f.getD i 0 + f.getD (12 - i) 0)).set i 0)
    (12 - i) 0 (by simpa using h12)
  rw [getD_set_ne _ _ _ _ hki] at e2
  rw [getD_set_ne _ _ _ _ hi12, getD_set_ne _ _ _ _ hk12] at e3
  omega

theorem stealUpd_length (f : List Nat) (k i : Nat) :
    (stealUpd f k i).length = f.length := by
  simp [stealUpd]

theorem stealUpd_getD_ne (f : List Nat) (k i j : Nat) (hjk : k ≠ j) (hji : i ≠ j)
    (hj12 : 12 - i ≠ j) : (stealUpd f k i).getD j 0 = f.getD j 0 := by
  unfold stealUpd
  rw [getD_set_ne _ _ _ _ hj12, getD_set_ne _ _ _ _ hji, getD_set_ne _ _ _ _ hjk]

theorem handle_steal_player (s : MankallaGameState) (i : Nat) :
    (s.handle_steal i).player_to_move = s.player_to_move := by
  unfold MankallaGameState.handle_steal handle_steal_p2 handle_steal_p1
  split <;> split <;> rfl

theorem handle_steal_length (s : MankallaGameState) (i : Nat) :
    (s.handle_steal i).fields.length = s.fields.length := by
  unfold MankallaGameState.handle_steal handle_steal_p2 handle_steal_p1
  split <;> split <;> simp [stealUpd_length]

theorem handle_steal_sum (s : MankallaGameState) (i : Nat) (hl : s.fields.length = 14) :
    (s.handle_steal i).fields.sum = s.fields.sum := by
  unfold MankallaGameState.handle_steal handle_steal_p2 handle_steal_p1
  split
  next h1 =>
    obtain ⟨e1, ep, hi6, hpos⟩ := h1
    split
    next h2 =>
      obtain ⟨-, ep2, -, -, -⟩ := h2
      rw [ep] at ep2
      exact absurd ep2 (by simp)
    next h2 =>
      exact stealUpd_sum _ _ _ (by omega) (by omega) (by omega) (by omega) (by omega) (by omega)
  next h1 =>
    split
    next h2 =>
      obtain ⟨e1, ep, hi6, hi13, hpos⟩ := h2
      exact stealUpd_sum _ _ _ (by omega) (by omega) (by omega) (by omega) (by omega) (by omega)
    next h2 => rfl

theorem handle_steal_opp_score (s : MankallaGameState) (i : Nat) :
    (s.handle_steal i).fields.getD (scoreIdx s.player_to_move.other) 0 =
      s.fields.getD (scoreIdx s.player_to_move.other) 0 := by
  unfold MankallaGameState.handle_steal handle_steal_p2 handle_steal_p1
  split
  next h1 =>
    obtain ⟨e1, ep, hi6, hpos⟩ := h1
    split
    next h2 =>
      obtain ⟨-, ep2, -, -, -⟩ := h2
      rw [ep] at ep2
      exact absurd ep2 (by simp)
    next h2 =>
      rw [ep]
      exact stealUpd_getD_ne _ _ _ _ (by simp only [Player.other, scoreIdx]; omega)
        (by simp only [Player.other, scoreIdx]; omega)
        (by simp only [Player.other, scoreIdx]; omega)
  next h1 =>
    split
    next h2 =>
      obtain ⟨e1, ep, hi6, hi13, hpos⟩ := h2
      rw [ep]
      exact stealUpd_getD_ne _ _ _ _ (by simp only [Player.other, scoreIdx]; omega)
        (by simp only [Player.other, scoreIdx]; omega)
        (by simp only [Player.other, scoreIdx]; omega)
    next h2 => rfl

/-! ### Lemmas about game end, turn switch, and step -/

theorem handle_if_fst_true_iff (s : MankallaGameState) :
    (s.handle_if_game_finished).1 = true ↔
      p1_sum s.fields = 0 ∨ p2_sum s.fields = 0 := by
  unfold MankallaGameState.handle_if_game_finished
  split
  next h => simp only [Bool.false_eq_true, false_iff]; omega
  next h => simp only [true_iff]; omega

theorem handle_if_snd_of_not_finished (s : MankallaGameState)
    (h : (s.handle_if_game_finished).1 = false) : (s.handle_if_game_finished).2 = s := by
  unfold MankallaGameState.handle_if_game_finished at h ⊢
  split at h
  next hc => rw [if_pos hc]
  next hc => simp at h

theorem handle_if_player (s : MankallaGameState) :
    (s.handle_if_game_finished).2.player_to_move = s.player_to_move := by
  unfold MankallaGameState.handle_if_game_finished
  split <;> rfl

theorem handle_switch_fields (s : MankallaGameState) (i : Nat) :
    (s.handle_switch_player i).fields = s.fields := by
  unfold MankallaGameState.handle_switch_player
  split <;> rfl

theorem physIdx_lt (p : Player) (a : Nat) (ha : a < 6) : physIdx p a < 14 := by
  cases p <;> simp only [physIdx] <;> omega

theorem afterSow_length (s : MankallaGameState) (a : Nat) (hl : s.fields.length = 14) :
    (afterSow s a).1.length = 14 := by
  unfold afterSow
  rw [sow_length]
  simpa using hl

theorem afterSow_sum (s : MankallaGameState) (a : Nat) (hl : s.fields.length = 14)
    (ha : a < 6) : (afterSow s a).1.sum = s.fields.sum := by
  unfold afterSow
  rw [sow_sum _ _ _ (by simpa using hl)]
  have := sum_set_getD s.fields (physIdx s.player_to_move a) 0
    (by rw [hl]; exact physIdx_lt _ _ ha)
  omega

theorem afterSow_idx_lt (s : MankallaGameState) (a : Nat) (ha : a < 6) :
    (afterSow s a).2 < 14 := by
  unfold afterSow
  exact sow_idx_lt _ _ _ (physIdx_lt _ _ ha)

theorem afterSteal_player (s : MankallaGameState) (a : Nat) :
    (afterSteal s a).player_to_move = s.player_to_move := by
  unfold afterSteal
  rw [handle_steal_player]

theorem afterSteal_length (s : MankallaGameState) (a : Nat) (hl : s.fields.length = 14) :
    (afterSteal s a).fields.length = 14 := by
  unfold afterSteal
  rw [handle_steal_length]
  exact afterSow_length s a hl

theorem afterSteal_sum (s : MankallaGameState) (a : Nat) (hl : s.fields.length = 14)
    (ha : a < 6) : (afterSteal s a).fields.sum = s.fields.sum := by
  unfold afterSteal
  rw [handle_steal_sum _ _ (afterSow_length s a hl)]
  exact afterSow_sum s a hl ha

theorem step_some_inv (s : MankallaGameState) (a : Nat) (s' : MankallaGameState) (r : ℚ)
    (h : MankallaGame.step s a = some (some s', r)) :
    a < 6 ∧ ((afterSteal s a).handle_if_game_finished).1 = false ∧
      s' = ((afterSteal s a).handle_if_game_finished).2.handle_switch_player (afterSow s a).2 := by
  unfold MankallaGame.step at h
  by_cases ha : a < 6
  · rw [if_pos ha] at h
    by_cases hf : ((afterSteal s a).handle_if_game_finished).1
    · rw [if_pos hf] at h
      simp at h
    · rw [if_neg hf] at h
      refine ⟨ha, by simpa using hf, ?_⟩
      simp only [Option.some.injEq, Prod.mk.injEq] at h
      exact h.1.symm
  · rw [if_neg ha] at h
    simp at h

/-- Claim C6: every non-terminal transition of MankallaGame::step preserves the
sum of all 14 counters. -/
theorem step_nonterminal_preserves_marble_sum (s : MankallaGameState) (a : Nat)
    (s' : MankallaGameState) (r : ℚ) (hlen : s.fields.length = 14)
    (h : MankallaGame.step s a = some (some s', r)) : s'.fields.sum = s.fields.sum := by
  obtain ⟨ha, hf, rfl⟩ := step_some_inv s a s' r h
  rw [handle_switch_fields, handle_if_snd_of_not_finished _ hf]
  exact afterSteal_sum s a hlen ha

unseal Rat.add Rat.sub Rat.mul Rat.inv in
/-- Witness for C6: the opening move from pit 2 keeps all 72 marbles on the
board. -/
theorem step_nonterminal_preserves_marble_sum_witness :
    (MankallaGameState.mk [6, 6, 0, 7, 7, 7, 1, 7, 7, 6, 6, 6, 6, 0] Player.Player2).fields.sum =
      MankallaGameState.default.fields.sum :=
  step_nonterminal_preserves_marble_sum MankallaGameState.default 2
    ⟨[6, 6, 0, 7, 7, 7, 1, 7, 7, 6, 6, 6, 6, 0], Player.Player2⟩ 1 (by decide) (by decide)

/-- Claim C4 (amended): on a non-terminal transition the opponent's scoring pit
is changed only by sowing - after the whole step it still holds exactly its
post-sowing value; captures and the mover's extra gains touch only the mover's
scoring pit. -/
theorem step_opponent_score_changes_only_by_sowing (s : MankallaGameState) (a : Nat)
    (s' : MankallaGameState) (r : ℚ)
    (h : MankallaGame.step s a = some (some s', r)) :
    s'.fields.getD (scoreIdx s.player_to_move.other) 0 =
      (afterSow s a).1.getD (scoreIdx s.player_to_move.other) 0 := by
  obtain ⟨ha, hf, rfl⟩ := step_some_inv s a s' r h
  rw [handle_switch_fields, handle_if_snd_of_not_finished _ hf]
  unfold afterSteal
  have := handle_steal_opp_score ⟨(afterSow s a).1, s.player_to_move⟩ (afterSow s a).2
  simpa using this

unseal Rat.add Rat.sub Rat.mul Rat.inv in
/-- Witness for C4 (amended): player one sowing eight marbles from pit 5 leaves
player two's scoring pit exactly at its post-sowing value 1. -/
theorem step_opponent_score_changes_only_by_sowing_witness :
    (MankallaGameState.mk [1, 0, 0, 0, 0, 0, 1, 2, 2, 2, 2, 2, 2, 1] Player.Player2).fields.getD
        (scoreIdx (MankallaGameState.mk [1, 0, 0, 0, 0, 8, 0, 1, 1, 1, 1, 1, 1, 0]
          Player.Player1).player_to_move.other) 0 =
      (afterSow (MankallaGameState.mk [1, 0, 0, 0, 0, 8, 0, 1, 1, 1, 1, 1, 1, 0]
          Player.Player1) 5).1.getD
        (scoreIdx (MankallaGameState.mk [1, 0, 0, 0, 0, 8, 0, 1, 1, 1, 1, 1, 1, 0]
          Player.Player1).player_to_move.other) 0 :=
  step_opponent_score_changes_only_by_sowing
    ⟨[1, 0, 0, 0, 0, 8, 0, 1, 1, 1, 1, 1, 1, 0], Player.Player1⟩ 5
    ⟨[1, 0, 0, 0, 0, 0, 1, 2, 2, 2, 2, 2, 2, 1], Player.Player2⟩ 0 (by decide)

unseal Rat.add Rat.sub Rat.mul Rat.inv in
/-- Counterexample for C4: when the eight marbles of pit 5 are sown through
both scoring pits, both scoring pits increase in the same (single, non-capture,
non-terminal) transition, refuting the claim that at most one of them can
increase per move. -/
theorem step_both_scoring_pits_increase :
    MankallaGame.step ⟨[1, 0, 0, 0, 0, 8, 0, 1, 1, 1, 1, 1, 1, 0], Player.Player1⟩ 5 =
      some (some ⟨[1, 0, 0, 0, 0, 0, 1, 2, 2, 2, 2, 2, 2, 1], Player.Player2⟩, 0) ∧
    ([1, 0, 0, 0, 0, 8, 0, 1, 1, 1, 1, 1, 1, 0] : List Nat).getD 6 0 <
      ([1, 0, 0, 0, 0, 0, 1, 2, 2, 2, 2, 2, 2, 1] : List Nat).getD 6 0 ∧
    ([1, 0, 0, 0, 0, 8, 0, 1, 1, 1, 1, 1, 1, 0] : List Nat).getD 13 0 <
      ([1, 0, 0, 0, 0, 0, 1, 2, 2, 2, 2, 2, 2, 1] : List Nat).getD 13 0 := by
  refine ⟨by decide, by decide, by decide⟩

/-- Claim C7: in a non-terminal transition the mover keeps the turn exactly
when the last sown marble landed in the mover's own scoring pit. -/
theorem step_free_turn_iff (s : MankallaGameState) (a : Nat) (s' : MankallaGameState) (r : ℚ)
    (h : MankallaGame.step s a = some (some s', r)) :
    s'.player_to_move = s.player_to_move ↔ (afterSow s a).2 = scoreIdx s.player_to_move := by
  obtain ⟨ha, hf, rfl⟩ := step_some_inv s a s' r h
  rw [handle_if_snd_of_not_finished _ hf]
  have hpl := afterSteal_player s a
  unfold MankallaGameState.handle_switch_player
  rw [hpl]
  cases hs : s.player_to_move with
  | Player1 =>
    by_cases h6 : (afterSow s a).2 = 6 <;>
      simp [h6, scoreIdx, Player.other, hpl, hs]
  | Player2 =>
    by_cases h13 : (afterSow s a).2 = 13 <;>
      simp [h13, scoreIdx, Player.other, hpl, hs]

unseal Rat.add Rat.sub Rat.mul Rat.inv in
/-- Witness for C7: the opening move from pit 0 lands in player one's scoring
pit and player one keeps the turn. -/
theorem step_free_turn_iff_witness :
    (MankallaGameState.mk [0, 7, 7, 7, 7, 7, 1, 6, 6, 6, 6, 6, 6, 0]
          Player.Player1).player_to_move = MankallaGameState.default.player_to_move ↔
      (afterSow MankallaGameState.default 0).2 = scoreIdx MankallaGameState.default.player_to_move :=
  step_free_turn_iff MankallaGameState.default 0
    ⟨[0, 7, 7, 7, 7, 7, 1, 6, 6, 6, 6, 6, 6, 0], Player.Player1⟩ 1 (by decide)

theorem handle_steal_of_getD_ne_one (s : MankallaGameState) (i : Nat)
    (h : s.fields.getD i 0 ≠ 1) : s.handle_steal i = s := by
  unfold MankallaGameState.handle_steal handle_steal_p2 handle_steal_p1
  have h1 : ¬(s.fields.getD i 0 = 1 ∧ s.player_to_move = Player.Player1 ∧ i < 6 ∧
      0 < s.fields.getD (12 - i) 0) := fun hc => h hc.1
  rw [if_neg h1]
  have h2 : ¬(s.fields.getD i 0 = 1 ∧ s.player_to_move = Player.Player2 ∧ 6 < i ∧ i < 13 ∧
      0 < s.fields.getD (12 - i) 0) := fun hc => h hc.1
  rw [if_neg h2]

/-- Claim C10: a legal-range action on an empty pit is silently accepted as a
pass: no marbles move, no panic, the reward is 0 and the turn switches. -/
theorem step_empty_pit_is_pass (s : MankallaGameState) (a : Nat)
    (h1 : p1_sum s.fields ≠ 0) (h2 : p2_sum s.fields ≠ 0)
    (ha : a < 6) (hz : s.fields.getD (physIdx s.player_to_move a) 0 = 0) :
    MankallaGame.step s a = some (some ⟨s.fields, s.player_to_move.other⟩, 0) := by
  have hsow : afterSow s a = (s.fields, physIdx s.player_to_move a) := by
    unfold afterSow
    rw [hz, set_zero_of_getD_zero _ _ hz]
    rfl
  have hsteal : afterSteal s a = ⟨s.fields, s.player_to_move⟩ := by
    rw [afterSteal, hsow]
    exact handle_steal_of_getD_ne_one _ _ (by dsimp only; rw [hz]; decide)
  have hfin : (MankallaGameState.handle_if_game_finished ⟨s.fields, s.player_to_move⟩) =
      (false, ⟨s.fields, s.player_to_move⟩) := by
    unfold MankallaGameState.handle_if_game_finished
    exact if_pos ⟨h1, h2⟩
  have hswitch : MankallaGameState.handle_switch_player ⟨s.fields, s.player_to_move⟩
      (physIdx s.player_to_move a) = ⟨s.fields, s.player_to_move.other⟩ := by
    unfold MankallaGameState.handle_switch_player
    rw [if_pos]
    cases hp : s.player_to_move
    · exact Or.inl ⟨rfl, by simp only [physIdx]; omega⟩
    · exact Or.inr ⟨rfl, by simp only [physIdx]; omega⟩
  have hrew : stepReward s a = 0 := by
    rw [stepReward, hsteal, hfin]
    simp [MankallaGameState.get_points]
  unfold MankallaGame.step
  rw [if_pos ha, hsteal, hfin, hrew, hsow]
  simp [hswitch]

unseal Rat.add Rat.sub Rat.mul Rat.inv in
/-- Witness for C10: from a board whose pit 0 is empty, action 0 passes the
turn and changes nothing. -/
theorem step_empty_pit_is_pass_witness :
    MankallaGame.step ⟨[0, 6, 6, 6, 6, 6, 0, 6, 6, 6, 6, 6, 6, 0], Player.Player1⟩ 0 =
      some (some ⟨[0, 6, 6, 6, 6, 6, 0, 6, 6, 6, 6, 6, 6, 0], Player.Player1.other⟩, 0) :=
  step_empty_pit_is_pass ⟨[0, 6, 6, 6, 6, 6, 0, 6, 6, 6, 6, 6, 6, 0], Player.Player1⟩ 0
    (by decide) (by decide) (by decide) (by decide)

unseal Rat.add Rat.sub Rat.mul Rat.inv in
/-- Counterexample for C3: applying action 0 whose source pit holds zero
marbles does not stop execution - step returns a successor state and a reward,
refuting the claim that an in-range empty-pit action is a fatal contract
violation. -/
theorem step_empty_pit_returns_successor :
    MankallaGame.step ⟨[0, 6, 6, 6, 6, 6, 0, 6, 6, 6, 6, 6, 6, 0], Player.Player1⟩ 0 ≠ none ∧
    MankallaGame.step ⟨[0, 6, 6, 6, 6, 6, 0, 6, 6, 6, 6, 6, 6, 0], Player.Player1⟩ 0 =
      some (some ⟨[0, 6, 6, 6, 6, 6, 0, 6, 6, 6, 6, 6, 6, 0], Player.Player2⟩, 0) := by
  refine ⟨by decide, by decide⟩

/-- Claim C3 (amended): MankallaGame::step panics exactly on the out-of-range
action indices 6 and above (the assert); an in-range action is always answered
with a result, even when its source pit is empty. -/
theorem step_none_iff_action_out_of_range (s : MankallaGameState) (a : Nat) :
    MankallaGame.step s a = none ↔ 6 ≤ a := by
  unfold MankallaGame.step
  by_cases ha : a < 6
  · rw [if_pos ha]
    constructor
    · intro hco
      exfalso
      revert hco
      split <;> simp
    · intro h6
      omega
  · rw [if_neg ha]
    simp only [true_iff]
    omega

theorem p1_sum_eq_zero_iff (f : List Nat) (h : f.length = 14) :
    p1_sum f = 0 ↔ ∀ j, j < 6 → f.getD j 0 = 0 := by
  obtain ⟨b0, b1, b2, b3, b4, b5, b6, b7, b8, b9, b10, b11, b12, b13, rfl⟩ := exists14 f h
  simp only [p1_sum, List.take, List.sum_cons, List.sum_nil]
  constructor
  · intro h0 j hj
    interval_cases j <;> simp only [List.getD_cons_zero, List.getD_cons_succ] <;> omega
  · intro hall
    have e0 := hall 0 (by omega)
    have e1 := hall 1 (by omega)
    have e2 := hall 2 (by omega)
    have e3 := hall 3 (by omega)
    have e4 := hall 4 (by omega)
    have e5 := hall 5 (by omega)
    simp only [List.getD_cons_zero, List.getD_cons_succ] at e0 e1 e2 e3 e4 e5
    omega

theorem p2_sum_eq_zero_iff (f : List Nat) (h : f.length = 14) :
    p2_sum f = 0 ↔ ∀ j, 7 ≤ j → j < 13 → f.getD j 0 = 0 := by
  obtain ⟨b0, b1, b2, b3, b4, b5, b6, b7, b8, b9, b10, b11, b12, b13, rfl⟩ := exists14 f h
  simp only [p2_sum, List.drop, List.take, List.sum_cons, List.sum_nil]
  constructor
  · intro h0 j hj7 hj13
    interval_cases j <;> simp only [List.getD_cons_zero, List.getD_cons_succ] <;> omega
  · intro hall
    have e7 := hall 7 (by omega) (by omega)
    have e8 := hall 8 (by omega) (by omega)
    have e9 := hall 9 (by omega) (by omega)
    have e10 := hall 10 (by omega) (by omega)
    have e11 := hall 11 (by omega) (by omega)
    have e12 := hall 12 (by omega) (by omega)
    simp only [List.getD_cons_zero, List.getD_cons_succ] at e7 e8 e9 e10 e11 e12
    omega

theorem harvestFields_getD_zero (f : List Nat) (hl : f.length = 14) (j : Nat) (hj : j < 14)
    (h6 : j ≠ 6) (h13 : j ≠ 13) : (harvestFields f).getD j 0 = 0 := by
  unfold harvestFields
  rw [getD_set_ne _ _ _ _ (by omega), getD_set_ne _ _ _ _ (by omega)]
  exact getD_map_zero _ _ (by omega)

theorem harvestFields_scores_sum (f : List Nat) (hl : f.length = 14) :
    (harvestFields f).getD 6 0 + (harvestFields f).getD 13 0 = f.sum := by
  unfold harvestFields
  have l1 : ((f.map fun _ => 0).set 6 (p1_sum f + f.getD 6 0)).length = 14 := by
    simp [hl]
  rw [getD_set_ne _ _ _ _ (by omega),
    getD_set_self _ _ _ (by simp only [List.length_set, List.length_map, hl]; omega),
    getD_set_self _ _ _ (by simp only [List.length_set, List.length_map, hl]; omega)]
  rw [sum_decomp14 f hl]
  omega

theorem harvestFields_scores (f : List Nat) (hl : f.length = 14) :
    (harvestFields f).getD 6 0 = p1_sum f + f.getD 6 0 ∧
    (harvestFields f).getD 13 0 = p2_sum f + f.getD 13 0 := by
  unfold harvestFields
  constructor
  · rw [getD_set_ne _ _ _ _ (by omega),
      getD_set_self _ _ _ (by simp only [List.length_set, List.length_map, hl]; omega)]
  · rw [getD_set_self _ _ _ (by simp only [List.length_set, List.length_map, hl]; omega)]

/-- Claim C8: step reports termination exactly when, after sowing and capture,
one side's six playing pits are all empty; the sweep then zeroes every playing
pit, credits each scoring pit with its own side's remaining playing-pit
marbles (on top of its previous score), and the two scoring pits together hold
the whole pre-transition marble total. -/
theorem step_terminal_iff_and_sweep (s : MankallaGameState) (a : Nat)
    (hlen : s.fields.length = 14) (ha : a < 6) :
    ((∃ r, MankallaGame.step s a = some (none, r)) ↔
      (∀ j, j < 6 → (afterSteal s a).fields.getD j 0 = 0) ∨
      (∀ j, 7 ≤ j → j < 13 → (afterSteal s a).fields.getD j 0 = 0)) ∧
    ((∃ r, MankallaGame.step s a = some (none, r)) →
      (∀ j, j < 14 → j ≠ 6 → j ≠ 13 →
        ((afterSteal s a).handle_if_game_finished).2.fields.getD j 0 = 0) ∧
      ((afterSteal s a).handle_if_game_finished).2.fields.getD 6 0 =
        p1_sum (afterSteal s a).fields + (afterSteal s a).fields.getD 6 0 ∧
      ((afterSteal s a).handle_if_game_finished).2.fields.getD 13 0 =
        p2_sum (afterSteal s a).fields + (afterSteal s a).fields.getD 13 0 ∧
      ((afterSteal s a).handle_if_game_finished).2.fields.getD 6 0 +
        ((afterSteal s a).handle_if_game_finished).2.fields.getD 13 0 = s.fields.sum) := by
  have hlen2 : (afterSteal s a).fields.length = 14 := afterSteal_length s a hlen
  have hterm : (∃ r, MankallaGame.step s a = some (none, r)) ↔
      ((afterSteal s a).handle_if_game_finished).1 = true := by
    unfold MankallaGame.step
    rw [if_pos ha]
    by_cases hf : ((afterSteal s a).handle_if_game_finished).1
    · rw [if_pos hf]
      simp [hf]
    · rw [if_neg hf]
      simp only [Bool.not_eq_true] at hf
      simp [hf]
  constructor
  · rw [hterm, handle_if_fst_true_iff]
    rw [p1_sum_eq_zero_iff _ hlen2, p2_sum_eq_zero_iff _ hlen2]
  · rw [hterm, handle_if_fst_true_iff]
    intro hdisj
    have hfin2 : ((afterSteal s a).handle_if_game_finished).2 =
        ⟨harvestFields (afterSteal s a).fields, (afterSteal s a).player_to_move⟩ := by
      unfold MankallaGameState.handle_if_game_finished
      rw [if_neg (by omega)]
    rw [hfin2]
    refine ⟨?_, ?_, ?_, ?_⟩
    · intro j hj hj6 hj13
      exact harvestFields_getD_zero _ hlen2 j hj hj6 hj13
    · exact (harvestFields_scores _ hlen2).1
    · exact (harvestFields_scores _ hlen2).2
    · rw [harvestFields_scores_sum _ hlen2]
      exact afterSteal_sum s a hlen ha

unseal Rat.add Rat.sub Rat.mul Rat.inv in
/-- Witness for C8: player one's last marble empties their side, the sweep
credits player one's remaining 0 plus score 6 to pit 6 and player two's
remaining 2 plus score 3 to pit 13, and the game is reported terminal. -/
theorem step_terminal_iff_and_sweep_witness :
    ((∃ r, MankallaGame.step ⟨[0, 0, 0, 0, 0, 1, 5, 2, 0, 0, 0, 0, 0, 3],
        Player.Player1⟩ 5 = some (none, r)) ↔
      (∀ j, j < 6 → (afterSteal ⟨[0, 0, 0, 0, 0, 1, 5, 2, 0, 0, 0, 0, 0, 3],
        Player.Player1⟩ 5).fields.getD j 0 = 0) ∨
      (∀ j, 7 ≤ j → j < 13 → (afterSteal ⟨[0, 0, 0, 0, 0, 1, 5, 2, 0, 0, 0, 0, 0, 3],
        Player.Player1⟩ 5).fields.getD j 0 = 0)) ∧
    ((∃ r, MankallaGame.step ⟨[0, 0, 0, 0, 0, 1, 5, 2, 0, 0, 0, 0, 0, 3],
        Player.Player1⟩ 5 = some (none, r)) →
      (∀ j, j < 14 → j ≠ 6 → j ≠ 13 →
        ((afterSteal ⟨[0, 0, 0, 0, 0, 1, 5, 2, 0, 0, 0, 0, 0, 3],
          Player.Player1⟩ 5).handle_if_game_finished).2.fields.getD j 0 = 0) ∧
      ((afterSteal ⟨[0, 0, 0, 0, 0, 1, 5, 2, 0, 0, 0, 0, 0, 3],
          Player.Player1⟩ 5).handle_if_game_finished).2.fields.getD 6 0 =
        p1_sum (afterSteal ⟨[0, 0, 0, 0, 0, 1, 5, 2, 0, 0, 0, 0, 0, 3],
          Player.Player1⟩ 5).fields +
        (afterSteal ⟨[0, 0, 0, 0, 0, 1, 5, 2, 0, 0, 0, 0, 0, 3],
          Player.Player1⟩ 5).fields.getD 6 0 ∧
      ((afterSteal ⟨[0, 0, 0, 0, 0, 1, 5, 2, 0, 0, 0, 0, 0, 3],
          Player.Player1⟩ 5).handle_if_game_finished).2.fields.getD 13 0 =
        p2_sum (afterSteal ⟨[0, 0, 0, 0, 0, 1, 5, 2, 0, 0, 0, 0, 0, 3],
          Player.Player1⟩ 5).fields +
        (afterSteal ⟨[0, 0, 0, 0, 0, 1, 5, 2, 0, 0, 0, 0, 0, 3],
          Player.Player1⟩ 5).fields.getD 13 0 ∧
      ((afterSteal ⟨[0, 0, 0, 0, 0, 1, 5, 2, 0, 0, 0, 0, 0, 3],
          Player.Player1⟩ 5).handle_if_game_finished).2.fields.getD 6 0 +
        ((afterSteal ⟨[0, 0, 0, 0, 0, 1, 5, 2, 0, 0, 0, 0, 0, 3],
          Player.Player1⟩ 5).handle_if_game_finished).2.fields.getD 13 0 =
        (MankallaGameState.mk [0, 0, 0, 0, 0, 1, 5, 2, 0, 0, 0, 0, 0, 3]
          Player.Player1).fields.sum) :=
  step_terminal_iff_and_sweep ⟨[0, 0, 0, 0, 0, 1, 5, 2, 0, 0, 0, 0, 0, 3], Player.Player1⟩ 5
    (by decide) (by decide)

theorem handle_steal_p1_player (s : MankallaGameState) (i : Nat) :
    (handle_steal_p1 s i).player_to_move = s.player_to_move := by
  unfold handle_steal_p1
  split <;> rfl

theorem handle_steal_p2_of_player1 (s : MankallaGameState) (i : Nat)
    (hp : s.player_to_move = Player.Player1) : handle_steal_p2 s i = s := by
  unfold handle_steal_p2
  rw [if_neg]
  intro h
  rw [hp] at h
  exact Player.noConfusion h.2.1

theorem handle_steal_p1_of_player2 (s : MankallaGameState) (i : Nat)
    (hp : s.player_to_move = Player.Player2) : handle_steal_p1 s i = s := by
  unfold handle_steal_p1
  rw [if_neg]
  intro h
  rw [hp] at h
  exact Player.noConfusion h.2.1

/-- Claim C2 (amended): a capture fires exactly when the landing pit holds one
marble after sowing, is one of the mover's six playing pits, and the opposite
pit is nonzero; then the landing pit and its opposite are emptied and their
total is added to the mover's scoring pit.  (The post-sowing count of one is
not the same as the pit having been empty before the move: a pit that held
exactly 14 marbles wraps around and refills itself with its own last marble.) -/
theorem handle_steal_characterization (s : MankallaGameState) (i : Nat) :
    s.handle_steal i =
      if s.fields.getD i 0 = 1 ∧ ownsPlayingPit s.player_to_move i ∧
          0 < s.fields.getD (12 - i) 0 then
        { s with fields := stealUpd s.fields (scoreIdx s.player_to_move) i }
      else s := by
  rcases s with ⟨f, p⟩
  cases p
  case Player1 =>
    have e2 : MankallaGameState.handle_steal ⟨f, Player.Player1⟩ i =
        handle_steal_p1 ⟨f, Player.Player1⟩ i :=
      handle_steal_p2_of_player1 _ i (handle_steal_p1_player _ i)
    rw [e2]
    unfold handle_steal_p1
    dsimp only
    by_cases hc : f.getD i 0 = 1 ∧ i < 6 ∧ 0 < f.getD (12 - i) 0
    · rw [if_pos (show f.getD i 0 = 1 ∧ Player.Player1 = Player.Player1 ∧ i < 6 ∧
          0 < f.getD (12 - i) 0 from ⟨hc.1, rfl, hc.2.1, hc.2.2⟩)]
      rw [if_pos (show f.getD i 0 = 1 ∧ ownsPlayingPit Player.Player1 i ∧
          0 < f.getD (12 - i) 0 from ⟨hc.1, hc.2.1, hc.2.2⟩)]
      rfl
    · rw [if_neg (show ¬(f.getD i 0 = 1 ∧ Player.Player1 = Player.Player1 ∧ i < 6 ∧
          0 < f.getD (12 - i) 0) from fun h => hc ⟨h.1, h.2.2.1, h.2.2.2⟩)]
      rw [if_neg (show ¬(f.getD i 0 = 1 ∧ ownsPlayingPit Player.Player1 i ∧
          0 < f.getD (12 - i) 0) from fun h => hc ⟨h.1, h.2.1, h.2.2⟩)]
  case Player2 =>
    have e2 : MankallaGameState.handle_steal ⟨f, Player.Player2⟩ i =
        handle_steal_p2 ⟨f, Player.Player2⟩ i := by
      unfold MankallaGameState.handle_steal
      rw [handle_steal_p1_of_player2 _ i rfl]
    rw [e2]
    unfold handle_steal_p2
    dsimp only
    by_cases hc : f.getD i 0 = 1 ∧ (6 < i ∧ i < 13) ∧ 0 < f.getD (12 - i) 0
    · rw [if_pos (show f.getD i 0 = 1 ∧ Player.Player2 = Player.Player2 ∧ 6 < i ∧ i < 13 ∧
          0 < f.getD (12 - i) 0 from ⟨hc.1, rfl, hc.2.1.1, hc.2.1.2, hc.2.2⟩)]
      rw [if_pos (show f.getD i 0 = 1 ∧ ownsPlayingPit Player.Player2 i ∧
          0 < f.getD (12 - i) 0 from ⟨hc.1, hc.2.1, hc.2.2⟩)]
      rfl
    · rw [if_neg (show ¬(f.getD i 0 = 1 ∧ Player.Player2 = Player.Player2 ∧ 6 < i ∧ i < 13 ∧
          0 < f.getD (12 - i) 0) from fun h => hc ⟨h.1, ⟨h.2.2.1, h.2.2.2.1⟩, h.2.2.2.2⟩)]
      rw [if_neg (show ¬(f.getD i 0 = 1 ∧ ownsPlayingPit Player.Player2 i ∧
          0 < f.getD (12 - i) 0) from fun h => hc ⟨h.1, h.2.1, h.2.2⟩)]

unseal Rat.add Rat.sub Rat.mul Rat.inv in
/-- Counterexample for C2: with 14 marbles in pit 0, the last sown marble wraps
all the way around and lands back in pit 0, which now holds exactly one but
previously held 14 (not zero) - and the capture fires anyway, taking pit 12.
So "capture only if the landing pit was previously empty" is false. -/
theorem step_capture_without_prior_empty_pit :
    (afterSow ⟨[14, 0, 0, 0, 0, 0, 0, 1, 1, 1, 1, 1, 1, 0], Player.Player1⟩ 0).2 = 0 ∧
    ([14, 0, 0, 0, 0, 0, 0, 1, 1, 1, 1, 1, 1, 0] : List Nat).getD 0 0 = 14 ∧
    afterSteal ⟨[14, 0, 0, 0, 0, 0, 0, 1, 1, 1, 1, 1, 1, 0], Player.Player1⟩ 0 ≠
      ⟨(afterSow ⟨[14, 0, 0, 0, 0, 0, 0, 1, 1, 1, 1, 1, 1, 0], Player.Player1⟩ 0).1,
        Player.Player1⟩ ∧
    MankallaGame.step ⟨[14, 0, 0, 0, 0, 0, 0, 1, 1, 1, 1, 1, 1, 0], Player.Player1⟩ 0 =
      some (some ⟨[0, 1, 1, 1, 1, 1, 4, 2, 2, 2, 2, 2, 0, 1], Player.Player2⟩, 3) := by
  refine ⟨by decide, by decide, by decide, by decide⟩

unseal Rat.add Rat.sub Rat.mul Rat.inv in
/-- Claim C1: GreedyPolicy::improve with next_state = None uses target = 0,
not target = reward.  On a fresh policy (all entries zero, learning rate 0.2)
a terminal transition with reward 1 stores 0 + 0.2 * (0 - 0) = 0, where the
specified update target = reward would store 0.2. -/
theorem greedy_improve_terminal_target_zero :
    GreedyPolicy.improve ⟨[], 1/5, 1⟩ [1, 0, 0, 0, 0, 0, 1, 1, 1, 1, 1, 1] 0 1 none =
      some ⟨[(([1, 0, 0, 0, 0, 0, 1, 1, 1, 1, 1, 1], 0), 0)], 1/5, 1⟩ ∧
    (0 : ℚ) + 1/5 * (1 - 0) ≠ 0 := by
  refine ⟨by decide, by decide⟩

unseal Rat.add Rat.sub Rat.mul Rat.inv in
/-- Counterexample for C5: the decay rate passed by main() is -0.01, not the
0.01 the claim states. -/
theorem fallback_policy_decay_rate_negative :
    fallbackPolicy.decay_rate = -(1/100) ∧ fallbackPolicy.decay_rate ≠ 1/100 := by
  refine ⟨by decide, by decide⟩

unseal Rat.add Rat.sub Rat.mul Rat.inv in
/-- Claim C5 (amended): the fallback policy is built with learning rate 0.2,
gamma 1, max epsilon 1, min epsilon 0.1, decay rate -0.01 (note the sign), an
empty value table and episode counter 0. -/
theorem fallback_policy_parameters :
    fallbackPolicy = ⟨⟨[], 1/5, 1⟩, 1/10, 1, -(1/100), 0⟩ := by decide

/-! ### Round-trip lemmas for the codec -/

theorem digit?_digitCh (d : Nat) (h : d < 10) : digit? (digitCh d) = some d := by
  interval_cases d <;> decide

theorem digitCh_cases (d : Nat) : digitCh d = '*' ∨ d < 10 := by
  rcases d with _ | _ | _ | _ | _ | _ | _ | _ | _ | _ | d
  · exact Or.inr (by omega)
  · exact Or.inr (by omega)
  · exact Or.inr (by omega)
  · exact Or.inr (by omega)
  · exact Or.inr (by omega)
  · exact Or.inr (by omega)
  · exact Or.inr (by omega)
  · exact Or.inr (by omega)
  · exact Or.inr (by omega)
  · exact Or.inr (by omega)
  · exact Or.inl rfl

theorem digitCh_not_sep (d : Nat) :
    digitCh d ≠ ';' ∧ digitCh d ≠ '\n' ∧ digitCh d ≠ ' ' := by
  rcases digitCh_cases d with h | h
  · rw [h]; refine ⟨by decide, by decide, by decide⟩
  · interval_cases d <;> refine ⟨by decide, by decide, by decide⟩

theorem digitCh_ne_dot (d : Nat) : digitCh d ≠ '.' := by
  rcases digitCh_cases d with h | h
  · rw [h]; decide
  · interval_cases d <;> decide

theorem digitCh_ne_dash (d : Nat) : digitCh d ≠ '-' := by
  rcases digitCh_cases d with h | h
  · rw [h]; decide
  · interval_cases d <;> decide

theorem natToCharsAux_acc (fuel : Nat) : ∀ (n : Nat) (acc : List Char),
    natToCharsAux fuel n acc = natToCharsAux fuel n [] ++ acc := by
  induction fuel with
  | zero => intro n acc; rfl
  | succ fuel ih =>
    intro n acc
    by_cases hn : n < 10
    · simp [natToCharsAux, hn]
    · rw [natToCharsAux, natToCharsAux, if_neg hn, if_neg hn, ih (n / 10),
        ih (n / 10) [digitCh (n % 10)]]
      simp

theorem mem_natToCharsAux (fuel : Nat) : ∀ (n : Nat) (acc : List Char) (c : Char),
    c ∈ natToCharsAux fuel n acc → (∃ d, c = digitCh d) ∨ c ∈ acc := by
  induction fuel with
  | zero => intro n acc c hc; exact Or.inr hc
  | succ fuel ih =>
    intro n acc c hc
    rw [natToCharsAux] at hc
    by_cases hn : n < 10
    · rw [if_pos hn] at hc
      rcases List.mem_cons.mp hc with hc | hc
      · exact Or.inl ⟨n, hc⟩
      · exact Or.inr hc
    · rw [if_neg hn] at hc
      rcases ih _ _ _ hc with h | h
      · exact Or.inl h
      · rcases List.mem_cons.mp h with h | h
        · exact Or.inl ⟨n % 10, h⟩
        · exact Or.inr h

theorem mem_natToChars (n : Nat) (c : Char) (hc : c ∈ natToChars n) : ∃ d, c = digitCh d := by
  rcases mem_natToCharsAux 30 n [] c hc with h | h
  · exact h
  · cases h

theorem natToChars_ne_nil (n : Nat) : natToChars n ≠ [] := by
  rw [natToChars, natToCharsAux]
  by_cases hn : n < 10
  · rw [if_pos hn]; simp
  · rw [if_neg hn, natToCharsAux_acc]; simp

theorem parseDigitsAux_append (xs : List Char) : ∀ (ys : List Char) (acc : Nat),
    parseDigitsAux acc (xs ++ ys) = (parseDigitsAux acc xs).bind fun m => parseDigitsAux m ys := by
  induction xs with
  | nil => intro ys acc; simp [parseDigitsAux]
  | cons c cs ih =>
    intro ys acc
    rw [List.cons_append, parseDigitsAux, parseDigitsAux]
    cases hdc : digit? c with
    | none => simp
    | some d => simpa using ih ys (acc * 10 + d)

theorem parseDigitsAux_natToChars (fuel : Nat) : ∀ (n : Nat) (acc0 : Nat), n < 10 ^ fuel →
    parseDigitsAux acc0 (natToCharsAux fuel n []) =
      some (acc0 * 10 ^ (natToCharsAux fuel n []).length + n) := by
  induction fuel with
  | zero =>
    intro n acc0 hn
    interval_cases n
    simp [natToCharsAux, parseDigitsAux]
  | succ fuel ih =>
    intro n acc0 hn
    rw [natToCharsAux]
    by_cases h10 : n < 10
    · rw [if_pos h10, parseDigitsAux, digit?_digitCh n h10]
      simp [parseDigitsAux]
    · rw [if_neg h10, natToCharsAux_acc, parseDigitsAux_append,
        ih (n / 10) acc0 (by rw [pow_succ] at hn; omega)]
      show parseDigitsAux _ [digitCh (n % 10)] = _
      rw [parseDigitsAux, digit?_digitCh (n % 10) (by omega)]
      simp only [parseDigitsAux]
      simp only [List.length_append, List.length_cons, List.length_nil, Nat.add_zero, pow_succ]
      congr 1
      have hdm := Nat.div_add_mod n 10
      ring_nf
      omega

theorem parseDigits_natToChars (n : Nat) (h : n < 10 ^ 30) :
    parseDigits (natToChars n) = some n := by
  have hp := parseDigitsAux_natToChars 30 n 0 h
  cases hE : natToChars n with
  | nil => exact absurd hE (natToChars_ne_nil n)
  | cons c cs =>
    rw [parseDigits]
    rw [natToChars] at hE
    rw [hE] at hp
    rw [hp]
    simp

theorem parseU8_natToChars (n : Nat) (h : n < 256) : parseU8 (natToChars n) = some n := by
  rw [parseU8, parseDigits_natToChars n (by omega)]
  simp [h]

theorem splitOnce_eq_none (c : Char) (cs : List Char) (h : c ∉ cs) :
    splitOnce c cs = none := by
  induction cs with
  | nil => rfl
  | cons x xs ih =>
    rw [splitOnce, if_neg (by simp at h; exact fun hc => h.1 hc.symm),
      ih (by simp at h; exact h.2)]
    rfl

theorem parseF32_natToChars (n : Nat) (h : n < 10 ^ 30) :
    parseF32 (natToChars n) = some (roundF32 (n : ℚ)) := by
  cases hE : natToChars n with
  | nil => exact absurd hE (natToChars_ne_nil n)
  | cons c cs =>
    have hcd : ∃ d, c = digitCh d := mem_natToChars n c (by rw [hE]; simp)
    have hdash : c ≠ '-' := by
      rcases hcd with ⟨d, rfl⟩
      exact digitCh_ne_dash d
    have hdot : '.' ∉ natToChars n := by
      intro hmem
      rcases mem_natToChars n _ hmem with ⟨d, hd⟩
      exact digitCh_ne_dot d hd.symm
    rw [parseF32, if_neg hdash, parseMag, ← hE, splitOnce_eq_none _ _ hdot,
      parseDigits_natToChars n h]
    rfl

theorem splitOnChar_ne_nil (c : Char) (cs : List Char) : splitOnChar c cs ≠ [] := by
  cases cs with
  | nil => simp [splitOnChar]
  | cons x xs =>
    rw [splitOnChar]
    cases hs : splitOnChar c xs with
    | nil => dsimp only; simp
    | cons h t =>
      dsimp only
      by_cases hx : x = c
      · rw [if_pos hx]; simp
      · rw [if_neg hx]; simp

theorem splitOnChar_of_not_mem (c : Char) (cs : List Char) (h : c ∉ cs) :
    splitOnChar c cs = [cs] := by
  induction cs with
  | nil => rfl
  | cons x xs ih =>
    simp only [List.mem_cons, not_or] at h
    rw [splitOnChar, ih h.2]
    dsimp only
    rw [if_neg (fun hx => h.1 hx.symm)]

theorem splitOnChar_append (c : Char) (xs ys : List Char) (h : c ∉ xs) :
    splitOnChar c (xs ++ c :: ys) = xs :: splitOnChar c ys := by
  induction xs with
  | nil =>
    rw [List.nil_append, splitOnChar]
    cases hs : splitOnChar c ys with
    | nil => exact absurd hs (splitOnChar_ne_nil c ys)
    | cons hh tt =>
      dsimp only
      rw [if_pos rfl]
  | cons x xs ih =>
    simp only [List.mem_cons, not_or] at h
    rw [List.cons_append, splitOnChar, ih h.2]
    dsimp only
    rw [if_neg (fun hx => h.1 hx.symm)]

theorem splitOnce_append (c : Char) (xs ys : List Char) (h : c ∉ xs) :
    splitOnce c (xs ++ c :: ys) = some (xs, ys) := by
  induction xs with
  | nil => rw [List.nil_append, splitOnce, if_pos rfl]
  | cons x xs ih =>
    simp only [List.mem_cons, not_or] at h
    rw [List.cons_append, splitOnce, if_neg (fun hx => h.1 hx.symm), ih h.2]
    rfl

theorem linesOf_nil : linesOf [] = [] := rfl

theorem linesOf_append (xs ys : List Char) (h : '\n' ∉ xs) :
    linesOf (xs ++ '\n' :: ys) = xs :: linesOf ys := by
  unfold linesOf
  rw [splitOnChar_append _ _ _ h]
  cases hs : splitOnChar '\n' ys with
  | nil => exact absurd hs (splitOnChar_ne_nil _ ys)
  | cons p ps =>
    have hgl : (xs :: p :: ps).getLast? = (p :: ps).getLast? := List.getLast?_cons_cons
    by_cases hl : (p :: ps).getLast? = some []
    · rw [if_pos (hgl.trans hl), if_pos hl]
      exact List.dropLast_cons₂
    · rw [if_neg (fun hcon => hl (hgl.symm.trans hcon)), if_neg hl]

theorem mem_joinSep (sep : Char) (parts : List (List Char)) (c : Char)
    (hc : c ∈ joinSep sep parts) : c = sep ∨ ∃ part ∈ parts, c ∈ part := by
  induction parts with
  | nil => cases hc
  | cons x t ih =>
    cases t with
    | nil =>
      rw [joinSep] at hc
      exact Or.inr ⟨x, by simp, hc⟩
    | cons y t2 =>
      rw [joinSep] at hc
      rcases List.mem_append.mp hc with h | h
      · exact Or.inr ⟨x, by simp, h⟩
      · rcases List.mem_cons.mp h with h | h
        · exact Or.inl h
        · rcases ih h with h2 | ⟨part, hp, hcp⟩
          · exact Or.inl h2
          · exact Or.inr ⟨part, by simp [hp], hcp⟩

theorem splitOnChar_joinSep (sep : Char) (parts : List (List Char)) (hne : parts ≠ [])
    (hall : ∀ part ∈ parts, sep ∉ part) :
    splitOnChar sep (joinSep sep parts) = parts := by
  induction parts with
  | nil => exact absurd rfl hne
  | cons x t ih =>
    cases t with
    | nil =>
      rw [joinSep]
      exact splitOnChar_of_not_mem _ _ (hall x (by simp))
    | cons y t2 =>
      rw [joinSep, splitOnChar_append _ _ _ (hall x (by simp))]
      rw [ih (by simp) (fun p hp => hall p (by simp [List.mem_cons.mp hp]))]

theorem mem_fracChars (fuel : Nat) : ∀ (r : ℚ) (c : Char), c ∈ fracChars fuel r →
    ∃ d, c = digitCh d := by
  induction fuel with
  | zero => intro r c hc; cases hc
  | succ fuel ih =>
    intro r c hc
    rw [fracChars] at hc
    by_cases hr : r = 0
    · rw [if_pos hr] at hc; cases hc
    · rw [if_neg hr] at hc
      rcases List.mem_cons.mp hc with h | h
      · exact ⟨_, h⟩
      · exact ih _ _ h

theorem mem_fmtF32 (x : ℚ) (c : Char) (hc : c ∈ fmtF32 x) :
    c = '-' ∨ c = '.' ∨ ∃ d, c = digitCh d := by
  unfold fmtF32 at hc
  rcases List.mem_append.mp hc with h | h
  · rcases List.mem_append.mp h with h1 | h1
    · by_cases hx : x < 0
      · rw [if_pos hx] at h1
        rcases List.mem_cons.mp h1 with h2 | h2
        · exact Or.inl h2
        · cases h2
      · rw [if_neg hx] at h1
        cases h1
    · exact Or.inr (Or.inr (mem_natToChars _ _ h1))
  · by_cases hf : (if x < 0 then -x else x) - ⌊(if x < 0 then -x else x)⌋ = 0
    · rw [if_pos hf] at h
      cases h
    · rw [if_neg hf] at h
      rcases List.mem_cons.mp h with h2 | h2
      · exact Or.inr (Or.inl h2)
      · exact Or.inr (Or.inr (mem_fracChars _ _ _ h2))

theorem fmtF32_no_semi (x : ℚ) : ';' ∉ fmtF32 x := by
  intro hc
  rcases mem_fmtF32 x _ hc with h | h | ⟨d, hd⟩
  · exact absurd h.symm (by decide)
  · exact absurd h.symm (by decide)
  · exact (digitCh_not_sep d).1 hd.symm

theorem fmtF32_no_newline (x : ℚ) : '\n' ∉ fmtF32 x := by
  intro hc
  rcases mem_fmtF32 x _ hc with h | h | ⟨d, hd⟩
  · exact absurd h.symm (by decide)
  · exact absurd h.symm (by decide)
  · exact (digitCh_not_sep d).2.1 hd.symm

theorem natToChars_no_semi (n : Nat) : ';' ∉ natToChars n := by
  intro hc
  rcases mem_natToChars n _ hc with ⟨d, hd⟩
  exact (digitCh_not_sep d).1 hd.symm

theorem natToChars_no_newline (n : Nat) : '\n' ∉ natToChars n := by
  intro hc
  rcases mem_natToChars n _ hc with ⟨d, hd⟩
  exact (digitCh_not_sep d).2.1 hd.symm

theorem natToChars_no_space (n : Nat) : ' ' ∉ natToChars n := by
  intro hc
  rcases mem_natToChars n _ hc with ⟨d, hd⟩
  exact (digitCh_not_sep d).2.2 hd.symm

theorem mem_serializeState12 (st : List Nat) (c : Char) (hc : c ∈ serializeState12 st) :
    c = ' ' ∨ ∃ d, c = digitCh d := by
  rcases mem_joinSep _ _ _ hc with h | ⟨part, hp, hcp⟩
  · exact Or.inl h
  · rcases List.mem_map.mp hp with ⟨n, _, rfl⟩
    exact Or.inr (mem_natToChars n c hcp)

theorem serializeState12_no_semi (st : List Nat) : ';' ∉ serializeState12 st := by
  intro hc
  rcases mem_serializeState12 st _ hc with h | ⟨d, hd⟩
  · exact absurd h.symm (by decide)
  · exact (digitCh_not_sep d).1 hd.symm

theorem serializeState12_no_newline (st : List Nat) : '\n' ∉ serializeState12 st := by
  intro hc
  rcases mem_serializeState12 st _ hc with h | ⟨d, hd⟩
  · exact absurd h.symm (by decide)
  · exact (digitCh_not_sep d).2.1 hd.symm

theorem parseU8List_map (st : List Nat) (hb : ∀ x ∈ st, x < 256) :
    parseU8List (st.map natToChars) = some st := by
  induction st with
  | nil => rfl
  | cons x t ih =>
    rw [List.map_cons, parseU8List, parseU8_natToChars x (hb x (by simp))]
    rw [ih (fun y hy => hb y (by simp [hy]))]
    rfl

theorem serializeState12_roundtrip (st : List Nat) (h12 : st.length = 12)
    (hb : ∀ x ∈ st, x < 256) : deserializeState12 (serializeState12 st) = some st := by
  have hsplit : splitOnChar ' ' (serializeState12 st) = st.map natToChars := by
    apply splitOnChar_joinSep
    · simp [← List.length_eq_zero, h12]
    · intro part hp
      rcases List.mem_map.mp hp with ⟨n, _, rfl⟩
      exact natToChars_no_space n
  rw [deserializeState12, hsplit]
  rw [if_pos (by simp [h12])]
  exact parseU8List_map st hb

theorem parseQLine_roundtrip (e : (List Nat × Nat) × ℚ) (h12 : e.1.1.length = 12)
    (hb : ∀ x ∈ e.1.1, x < 256) (ha : e.1.2 < 256)
    (hv : parseF32 (fmtF32 e.2) = some e.2) :
    parseQLine (serializeQLine e) = some e := by
  rw [parseQLine, serializeQLine]
  simp only [List.cons_append, List.append_assoc]
  rw [splitOnChar_append _ _ _ (serializeState12_no_semi _),
    splitOnChar_append _ _ _ (natToChars_no_semi _),
    splitOnChar_of_not_mem _ _ (fmtF32_no_semi _)]
  dsimp only
  rw [serializeState12_roundtrip _ h12 hb, parseU8_natToChars _ ha, hv]
  simp

theorem qinsert_append (acc : List ((List Nat × Nat) × ℚ)) (k : List Nat × Nat) (v : ℚ)
    (h : ∀ kv ∈ acc, kv.1 ≠ k) : qinsert acc k v = acc ++ [(k, v)] := by
  induction acc with
  | nil => rfl
  | cons kv rest ih =>
    rw [qinsert, if_neg (h kv (by simp)), ih (fun kv2 h2 => h kv2 (by simp [h2]))]
    rfl

theorem parseQTableAux_roundtrip (table : List ((List Nat × Nat) × ℚ)) :
    ∀ acc : List ((List Nat × Nat) × ℚ), (table.map Prod.fst).Nodup →
    (∀ e ∈ table, ∀ kv ∈ acc, kv.1 ≠ e.1) →
    (∀ e ∈ table, parseQLine (serializeQLine e) = some e) →
    parseQTableAux acc (table.map serializeQLine) = some (acc ++ table) := by
  induction table with
  | nil => intro acc _ _ _; simp [parseQTableAux]
  | cons e t ih =>
    intro acc h1 h2 h3
    rw [List.map_cons, parseQTableAux, h3 e (by simp)]
    rw [List.map_cons, List.nodup_cons] at h1
    have hq : qinsert acc e.1 e.2 = acc ++ [(e.1, e.2)] :=
      qinsert_append acc e.1 e.2 (h2 e (by simp))
    rw [Option.some_bind, hq]
    have hdisj : ∀ e2 ∈ t, ∀ kv ∈ acc ++ [(e.1, e.2)], kv.1 ≠ e2.1 := by
      intro e2 he2 kv hkv
      rcases List.mem_append.mp hkv with hkv | hkv
      · exact h2 e2 (by simp [he2]) kv hkv
      · rcases List.mem_singleton.mp hkv with rfl
        intro hcon
        exact h1.1 (by rw [hcon]; exact List.mem_map_of_mem Prod.fst he2)
    rw [ih (acc ++ [(e.1, e.2)]) h1.2 hdisj (fun e2 he2 => h3 e2 (by simp [he2]))]
    simp

theorem linesOf_records (ls : List (List Char)) (h : ∀ l ∈ ls, '\n' ∉ l) :
    linesOf ((ls.map fun l => l ++ ['\n']).flatten) = ls := by
  induction ls with
  | nil => rfl
  | cons l t ih =>
    rw [List.map_cons, List.flatten_cons]
    have hsh : (l ++ ['\n']) ++ (t.map fun l2 => l2 ++ ['\n']).flatten =
        l ++ '\n' :: (t.map fun l2 => l2 ++ ['\n']).flatten := by
      simp
    rw [hsh, linesOf_append _ _ (h l (by simp)), ih (fun l2 h2 => h l2 (by simp [h2]))]

theorem greedy_serialize_roundtrip (p : GreedyPolicy)
    (hg : parseF32 (fmtF32 p.gamma) = some p.gamma)
    (hr : parseF32 (fmtF32 p.learning_rate) = some p.learning_rate)
    (htable : ∀ e ∈ p.qtable, e.1.1.length = 12 ∧ (∀ x ∈ e.1.1, x < 256) ∧ e.1.2 < 256 ∧
        parseF32 (fmtF32 e.2) = some e.2)
    (hkeys : (p.qtable.map Prod.fst).Nodup) :
    GreedyPolicy.deserialize p.serialize = some p := by
  have hline : '\n' ∉ fmtF32 p.gamma ++ ';' :: fmtF32 p.learning_rate := by
    intro hmem
    rcases List.mem_append.mp hmem with h | h
    · exact fmtF32_no_newline _ h
    · rcases List.mem_cons.mp h with h | h
      · exact absurd h (by decide)
      · exact fmtF32_no_newline _ h
  have hnl : ∀ l ∈ p.qtable.map serializeQLine, '\n' ∉ l := by
    intro l hl hmem
    rcases List.mem_map.mp hl with ⟨e, _, rfl⟩
    rw [serializeQLine] at hmem
    rcases List.mem_append.mp hmem with h | h
    · rcases List.mem_append.mp h with h1 | h1
      · exact serializeState12_no_newline _ h1
      · rcases List.mem_cons.mp h1 with h2 | h2
        · exact absurd h2 (by decide)
        · exact natToChars_no_newline _ h2
    · rcases List.mem_cons.mp h with h2 | h2
      · exact absurd h2 (by decide)
      · exact fmtF32_no_newline _ h2
  have hsh : (fmtF32 p.gamma ++ ';' :: fmtF32 p.learning_rate) ++
      '\n' :: ((p.qtable.map serializeQLine).map fun l => l ++ ['\n']).flatten =
      p.serialize := by
    rw [GreedyPolicy.serialize, List.map_map]
    simp [Function.comp_def]
  rw [GreedyPolicy.deserialize, ← hsh, linesOf_append _ _ hline, linesOf_records _ hnl]
  dsimp only
  rw [splitOnChar_append _ _ _ (fmtF32_no_semi _),
    splitOnChar_of_not_mem _ _ (fmtF32_no_semi _)]
  dsimp only
  rw [hg, Option.some_bind, hr, Option.some_bind]
  rw [parseQTableAux_roundtrip p.qtable [] hkeys (by intro e he kv hkv; cases hkv)
    (fun e he => parseQLine_roundtrip e (htable e he).1 (htable e he).2.1
      (htable e he).2.2.1 (htable e he).2.2.2)]
  simp

/-- Claim C9 (amended): serializing and deserializing an EpsilonGreedyPolicy
restores the value table, gamma, learning rate, min/max epsilon and decay rate
exactly, provided each stored f32 value parses back from its printed form (true
of every genuine f32 by Rust's round-trip guarantee, hypothesized per field in
this rational model) and the table keys are twelve u8 counters with no
duplicate (state, action) pair; the episode count however travels through an
f32 parse and comes back as its nearest-f32 rounding, so it is restored exactly
only when it is f32-representable. -/
theorem eps_policy_roundtrip (P : EpsilonGreedyPolicy)
    (hmin : parseF32 (fmtF32 P.min_epsilon) = some P.min_epsilon)
    (hmax : parseF32 (fmtF32 P.max_epsilon) = some P.max_epsilon)
    (hdec : parseF32 (fmtF32 P.decay_rate) = some P.decay_rate)
    (hg : parseF32 (fmtF32 P.greedy_policy.gamma) = some P.greedy_policy.gamma)
    (hr : parseF32 (fmtF32 P.greedy_policy.learning_rate) =
      some P.greedy_policy.learning_rate)
    (htable : ∀ e ∈ P.greedy_policy.qtable, e.1.1.length = 12 ∧
      (∀ x ∈ e.1.1, x < 256) ∧ e.1.2 < 256 ∧ parseF32 (fmtF32 e.2) = some e.2)
    (hkeys : (P.greedy_policy.qtable.map Prod.fst).Nodup)
    (hep : P.episode < 2 ^ 64) :
    EpsilonGreedyPolicy.deserialize P.serialize =
      some { P with episode := usizeOfF32 (roundF32 (P.episode : ℚ)) } := by
  have hline : '\n' ∉ fmtF32 P.min_epsilon ++ ';' :: fmtF32 P.max_epsilon ++
      ';' :: fmtF32 P.decay_rate ++ ';' :: natToChars P.episode := by
    intro hmem
    rcases List.mem_append.mp hmem with h | h
    · rcases List.mem_append.mp h with h | h
      · rcases List.mem_append.mp h with h | h
        · exact fmtF32_no_newline _ h
        · rcases List.mem_cons.mp h with h2 | h2
          · exact absurd h2 (by decide)
          · exact fmtF32_no_newline _ h2
      · rcases List.mem_cons.mp h with h2 | h2
        · exact absurd h2 (by decide)
        · exact fmtF32_no_newline _ h2
    · rcases List.mem_cons.mp h with h2 | h2
      · exact absurd h2 (by decide)
      · exact natToChars_no_newline _ h2
  have hsh : (fmtF32 P.min_epsilon ++ ';' :: fmtF32 P.max_epsilon ++
      ';' :: fmtF32 P.decay_rate ++ ';' :: natToChars P.episode) ++
      '\n' :: P.greedy_policy.serialize = P.serialize := by
    rw [EpsilonGreedyPolicy.serialize]
  rw [EpsilonGreedyPolicy.deserialize, ← hsh, splitOnce_append _ _ _ hline]
  rw [Option.some_bind]
  dsimp only
  have hsplit : splitOnChar ';' (fmtF32 P.min_epsilon ++ ';' :: fmtF32 P.max_epsilon ++
      ';' :: fmtF32 P.decay_rate ++ ';' :: natToChars P.episode) =
      [fmtF32 P.min_epsilon, fmtF32 P.max_epsilon, fmtF32 P.decay_rate,
        natToChars P.episode] := by
    simp only [List.cons_append, List.append_assoc]
    rw [splitOnChar_append _ _ _ (fmtF32_no_semi _),
      splitOnChar_append _ _ _ (fmtF32_no_semi _),
      splitOnChar_append _ _ _ (fmtF32_no_semi _),
      splitOnChar_of_not_mem _ _ (natToChars_no_semi _)]
  rw [hsplit]
  dsimp only
  rw [hmin, Option.some_bind, hmax, Option.some_bind, hdec, Option.some_bind,
    parseF32_natToChars P.episode (by norm_num at hep ⊢; omega), Option.some_bind,
    greedy_serialize_roundtrip P.greedy_policy hg hr htable hkeys]
  rfl

unseal Rat.add Rat.sub Rat.mul Rat.inv in
/-- Counterexample for C9: an episode count of 2^24 + 1 = 16777217 is printed
exactly but parsed back through f32, which rounds it to 16777216; the
deserialized policy is not equal to the original. -/
theorem eps_policy_roundtrip_fails_on_large_episode :
    EpsilonGreedyPolicy.deserialize (EpsilonGreedyPolicy.serialize
        ⟨⟨[], 1/2, 1⟩, 1/2, 1, 1/4, 16777217⟩) =
      some ⟨⟨[], 1/2, 1⟩, 1/2, 1, 1/4, 16777216⟩ ∧
    EpsilonGreedyPolicy.deserialize (EpsilonGreedyPolicy.serialize
        ⟨⟨[], 1/2, 1⟩, 1/2, 1, 1/4, 16777217⟩) ≠
      some ⟨⟨[], 1/2, 1⟩, 1/2, 1, 1/4, 16777217⟩ := by
  refine ⟨by decide, by decide⟩

unseal Rat.add Rat.sub Rat.mul Rat.inv in
/-- Witness for C9 (amended): a policy with one table entry and episode 5
round-trips exactly (5 is f32-representable). -/
theorem eps_policy_roundtrip_witness :
    EpsilonGreedyPolicy.deserialize (EpsilonGreedyPolicy.serialize
        ⟨⟨[(([1, 2, 3, 4, 5, 6, 7, 8, 9, 10, 11, 12], 3), 1/2)], 1/2, 1⟩,
          1/2, 1, 1/4, 5⟩) =
      some ⟨⟨[(([1, 2, 3, 4, 5, 6, 7, 8, 9, 10, 11, 12], 3), 1/2)], 1/2, 1⟩,
          1/2, 1, 1/4, 5⟩ :=
  (eps_policy_roundtrip
    ⟨⟨[(([1, 2, 3, 4, 5, 6, 7, 8, 9, 10, 11, 12], 3), 1/2)], 1/2, 1⟩, 1/2, 1, 1/4, 5⟩
    (by decide) (by decide) (by decide) (by decide) (by decide)
    (by decide) (by decide) (by decide)).trans (by decide)
